import Mathlib

/-!
# Resampling a GPS track: `track.go`

A shallow embedding of `meanRow` and `resample` from `track.go`, together with the two
library facilities `resample` relies on: `time.Time.Truncate` and `sort.Slice`.

Modelling conventions.

* `time.Time` is an instant, counted in nanoseconds since the zero time of Go
  (January 1 of year 1, 00:00:00 UTC); `time.Duration` is a signed number of nanoseconds.
  Both are unbounded integers here. All rows are taken to carry one and the same location
  (as `loadData` arranges with `In(loc)`), so equality of map keys is equality of instants.
* `float64` fields are rational numbers: sums and quotients are exact.
* A Go map is an association list with unique keys; the order in which `range` visits it is
  not specified by Go and is a parameter of `resample`.
* `sort.Slice` sees the slice only through `less` and swaps of two positions. The routine
  is a parameter of `resample`; `sortSlice` below is the one Go runs on short slices.
* A run-time index-out-of-range failure is the result `none`.
-/

namespace Track

/-- The type `time.Time`: nanoseconds since the zero time. -/
abbrev Time := Int

/-- The type `time.Duration`: nanoseconds. -/
abbrev Duration := Int

/-- The struct `Row` of `track.go`. -/
structure Row where
  Time : Time
  Lat : ℚ
  Lng : ℚ
  Height : ℚ
deriving DecidableEq

/-- The method `Time.Truncate` of package `time`: round `t` down to a multiple of `d` since
the zero time; for `d <= 0` return `t` unchanged. Go computes the remainder `r` of `t` by
`d` with `0 <= r < d` (also for instants before the zero time) and returns `t.Add(-r)`. -/
def Truncate (t : Time) (d : Duration) : Time :=
  if d ≤ 0 then t else t - t % d

/-- The method `Time.Before` of package `time`. -/
def Before (t u : Time) : Bool :=
  decide (t < u)

/-- The body of the loop of `meanRow`: add one row to the three running sums. -/
def addRow (acc : ℚ × ℚ × ℚ) (row : Row) : ℚ × ℚ × ℚ :=
  (acc.1 + row.Lat, acc.2.1 + row.Lng, acc.2.2 + row.Height)

/-- The function `meanRow` of `track.go`. On an empty slice Go divides `0.0` by `0.0` and
gets NaN, where the quotient here is 0; `resample` never calls it on an empty slice,
since every group built by its first loop holds at least one row. -/
def meanRow (t : Time) (rows : List Row) : Row :=
  let sums := rows.foldl addRow (0, 0, 0)
  let count : ℚ := (rows.length : ℚ)
  { Time := t
    Lat := sums.1 / count
    Lng := sums.2.1 / count
    Height := sums.2.2 / count }

/-- A value of type `map[time.Time][]Row`: entries with pairwise different keys. -/
abbrev Buckets := List (Time × List Row)

/-- The map read `buckets[t]`: the stored slice, or the nil slice when `t` is not a key. -/
def Buckets.lookup : Buckets → Time → List Row
  | [], _ => []
  | (k, v) :: b, t => if k = t then v else Buckets.lookup b t

/-- The map write `buckets[t] = v`: replace the value of key `t`, or add a new entry. -/
def Buckets.store : Buckets → Time → List Row → Buckets
  | [], t, v => [(t, v)]
  | (k, w) :: b, t, v => if k = t then (k, v) :: b else (k, w) :: Buckets.store b t v

/-- The body of the first loop of `resample`:
`t := row.Time.Truncate(freq); buckets[t] = append(buckets[t], row)`. -/
def addToBucket (freq : Duration) (buckets : Buckets) (row : Row) : Buckets :=
  let t := Truncate row.Time freq
  Buckets.store buckets t (Buckets.lookup buckets t ++ [row])

/-- The first loop of `resample`: group the rows by truncated time, starting from the
empty map. -/
def groupRows (rows : List Row) (freq : Duration) : Buckets :=
  rows.foldl (addToBucket freq) []

/-- The second loop of `resample`, run over the map entries in the order `entries` in which
`range` visits them: `out = append(out, meanRow(t, rows))`. -/
def collectMeans (entries : Buckets) : List Row :=
  entries.foldl (fun out e => out ++ [meanRow e.1 e.2]) []

/-- The comparator `func(i, j int) bool { return rows[i].Time.Before(rows[j].Time) }` that
`resample` hands to `sort.Slice`. Here `rows` is the parameter of `resample` (the loop
variable of the same name is out of scope); `none` is an index out of range. -/
def lessRows (rows : List Row) (i j : Nat) : Option Bool :=
  match rows[i]?, rows[j]? with
  | some ri, some rj => some (Before ri.Time rj.Time)
  | _, _ => none

/-- A sorting routine with the signature of `sort.Slice`, specialised to `[]Row`: it gets
the comparator on indices and the slice, and returns the rearranged slice. -/
abbrev SortRoutine := (Nat → Nat → Option Bool) → List Row → Option (List Row)

/-- An iteration order of `range` over a map: the entries in the order they are visited. -/
abbrev RangeOrder := Buckets → Buckets

/-- The function `resample` of `track.go`. -/
def resample (sorter : SortRoutine) (range : RangeOrder) (rows : List Row)
    (freq : Duration) : Option (List Row) :=
  let buckets := groupRows rows freq
  let out := collectMeans (range buckets)
  sorter (lessRows rows) out

/-- The swap function `sort.Slice` builds for the slice: exchange positions `i` and `j`. -/
def swapAt (xs : List Row) (i j : Nat) : Option (List Row) :=
  match xs[i]?, xs[j]? with
  | some x, some y => some ((xs.set i y).set j x)
  | _, _ => none

/-- The inner loop of `insertionSort_func` of package `sort`:
`for j := i; j > a && data.Less(j, j-1); j-- { data.Swap(j, j-1) }`. -/
def insertionInner (less : Nat → Nat → Option Bool) (a : Nat) :
    Nat → List Row → Option (List Row)
  | 0, xs => some xs
  | j + 1, xs =>
    if a < j + 1 then
      match less (j + 1) j with
      | none => none
      | some true =>
        match swapAt xs (j + 1) j with
        | none => none
        | some ys => insertionInner less a j ys
      | some false => some xs
    else some xs

/-- The function `insertionSort_func` of package `sort`:
`for i := a + 1; i < b; i++ { ... }`. -/
def insertionSort_func (less : Nat → Nat → Option Bool) (a b : Nat) (xs : List Row) :
    Option (List Row) :=
  (List.range' (a + 1) (b - (a + 1))).foldlM (fun ys i => insertionInner less a i ys) xs

/-- The function `sort.Slice` on a slice of at most 12 elements, where `pdqsort_func`
goes straight to `insertionSort_func(data, 0, length)`. (Up to 6 elements the older
`quickSort_func` does the same.) -/
def sortSlice : SortRoutine :=
  fun less xs => insertionSort_func less 0 xs.length xs

/-- What `resample` may rely on from `sort.Slice`, whichever routine it runs: the slice is
rearranged by swaps only, so the result is a permutation of the slice. -/
def SwapsOnly (sorter : SortRoutine) : Prop :=
  ∀ less xs ys, sorter less xs = some ys → ys.Perm xs

/-- What `resample` may rely on from `sort.Slice`: the comparator is called only with
indices below the length of the slice, so the routine completes whenever the comparator
answers on those indices. -/
def CallsInRange (sorter : SortRoutine) : Prop :=
  ∀ less xs, (∀ i j, i < xs.length → j < xs.length → (less i j).isSome) →
    (sorter less xs).isSome

/-- What Go promises about `range` over a map: every entry is visited exactly once. -/
def VisitsAll (range : RangeOrder) : Prop :=
  ∀ b, (range b).Perm b

/-- The iteration order that visits the entries in the order their keys were first stored. -/
def rangeStored : RangeOrder :=
  fun b => b

/-- The iteration order that visits the entries latest key first. -/
def rangeLatestFirst : RangeOrder :=
  fun b => b.reverse

/-- The key of a row: its truncated time. -/
def keyOf (freq : Duration) (row : Row) : Time :=
  Truncate row.Time freq

/-- The rows of a sequence that fall into the bucket with key `k`. -/
def rowsOfKey (freq : Duration) (k : Time) (rows : List Row) : List Row :=
  rows.filter (fun row => decide (keyOf freq row = k))

/-- The times of a sequence of rows are strictly increasing. -/
def StrictlyIncreasing (out : List Row) : Prop :=
  out.Pairwise (fun a b => a.Time < b.Time)

instance decidableStrictlyIncreasing (out : List Row) : Decidable (StrictlyIncreasing out) := by
  unfold StrictlyIncreasing
  infer_instance

/-- A row with the given time and latitude, at longitude 0 and height 0. -/
def mkRow (t : Time) (lat : ℚ) : Row :=
  { Time := t, Lat := lat, Lng := 0, Height := 0 }

/-- The state of the grouping loop after the rows `seen` have been processed. -/
structure Grouped (freq : Duration) (b : Buckets) (seen : List Row) : Prop where
  nodup : (b.map Prod.fst).Nodup
  lookup : ∀ k, Buckets.lookup b k = rowsOfKey freq k seen
  keys : ∀ k ∈ b.map Prod.fst, ∃ row ∈ seen, keyOf freq row = k
  sizes : (b.map (fun e => e.2.length)).sum = seen.length

/-! ## Truncation -/

theorem Truncate_of_pos (t : Time) (d : Duration) (hd : 0 < d) :
    Truncate t d = t - t % d := by
  unfold Truncate
  rw [if_neg (not_le.mpr hd)]

theorem Truncate_of_nonpos (t : Time) (d : Duration) (hd : d ≤ 0) : Truncate t d = t := by
  unfold Truncate
  rw [if_pos hd]

theorem floor_bounds (t w : Int) (hw : 0 < w) :
    w ∣ t - t % w ∧ t - t % w ≤ t ∧ t < t - t % w + w := by
  have h0 : 0 ≤ t % w := Int.emod_nonneg t (ne_of_gt hw)
  have h1 : t % w < w := Int.emod_lt_of_pos t hw
  refine ⟨Int.dvd_sub_of_emod_eq rfl, ?_, ?_⟩ <;> omega

theorem Truncate_floor (t : Time) (w : Duration) (hw : 0 < w) :
    w ∣ Truncate t w ∧ Truncate t w ≤ t ∧ t < Truncate t w + w := by
  rw [Truncate_of_pos t w hw]
  exact floor_bounds t w hw

/-! ## The map operations -/

theorem lookup_store (b : Buckets) (t k : Time) (v : List Row) :
    Buckets.lookup (Buckets.store b t v) k = if t = k then v else Buckets.lookup b k := by
  induction b with
  | nil => simp [Buckets.store, Buckets.lookup]
  | cons e b ih =>
    obtain ⟨k0, w⟩ := e
    by_cases h0 : k0 = t
    · subst h0
      by_cases h1 : k0 = k <;> simp [Buckets.store, Buckets.lookup, h1]
    · simp only [Buckets.store, if_neg h0, Buckets.lookup, ih]
      by_cases h1 : k0 = k
      · have h2 : ¬ t = k := fun h => h0 (h1.trans h.symm)
        simp [h1, h2]
      · simp [h1]

theorem keys_store (b : Buckets) (t : Time) (v : List Row) :
    (Buckets.store b t v).map Prod.fst =
      if t ∈ b.map Prod.fst then b.map Prod.fst else b.map Prod.fst ++ [t] := by
  induction b with
  | nil => simp [Buckets.store]
  | cons e b ih =>
    obtain ⟨k0, w⟩ := e
    by_cases h0 : k0 = t
    · subst h0
      simp [Buckets.store]
    · have h1 : ¬ t = k0 := fun h => h0 h.symm
      simp only [Buckets.store, if_neg h0, List.map_cons, ih, List.mem_cons, h1, false_or]
      split <;> simp

theorem sizes_store (b : Buckets) (t : Time) (v : List Row) :
    ((Buckets.store b t v).map (fun e => e.2.length)).sum + (Buckets.lookup b t).length =
      (b.map (fun e => e.2.length)).sum + v.length := by
  induction b with
  | nil => simp [Buckets.store, Buckets.lookup]
  | cons e b ih =>
    obtain ⟨k0, w⟩ := e
    by_cases h0 : k0 = t
    · subst h0
      simp [Buckets.store, Buckets.lookup]
      omega
    · simp only [Buckets.store, if_neg h0, Buckets.lookup, List.map_cons, List.sum_cons]
      omega

theorem lookup_of_not_mem (b : Buckets) (k : Time) (h : k ∉ b.map Prod.fst) :
    Buckets.lookup b k = [] := by
  induction b with
  | nil => rfl
  | cons e b ih =>
    obtain ⟨k0, w⟩ := e
    simp only [List.map_cons, List.mem_cons, not_or] at h
    have h0 : ¬ k0 = k := fun h1 => h.1 h1.symm
    simp only [Buckets.lookup, if_neg h0]
    exact ih h.2

theorem lookup_of_mem (b : Buckets) (hb : (b.map Prod.fst).Nodup) (e : Time × List Row)
    (he : e ∈ b) : Buckets.lookup b e.1 = e.2 := by
  induction b with
  | nil => simp at he
  | cons e0 b ih =>
    obtain ⟨k0, w⟩ := e0
    rw [List.map_cons, List.nodup_cons] at hb
    rcases List.mem_cons.mp he with h | h
    · subst h
      simp [Buckets.lookup]
    · have h0 : ¬ k0 = e.1 := by
        intro h1
        apply hb.1
        rw [h1]
        exact List.mem_map.mpr ⟨e, h, rfl⟩
      simp only [Buckets.lookup, if_neg h0]
      exact ih hb.2 h

/-! ## The grouping loop -/

theorem rowsOfKey_append (freq : Duration) (k : Time) (xs ys : List Row) :
    rowsOfKey freq k (xs ++ ys) = rowsOfKey freq k xs ++ rowsOfKey freq k ys := by
  simp [rowsOfKey]

theorem rowsOfKey_single (freq : Duration) (k : Time) (row : Row) :
    rowsOfKey freq k [row] = if keyOf freq row = k then [row] else [] := by
  by_cases h : keyOf freq row = k <;> simp [rowsOfKey, h]

theorem Grouped.empty (freq : Duration) : Grouped freq [] [] :=
  ⟨by simp, fun k => by simp [Buckets.lookup, rowsOfKey], by simp, by simp⟩

theorem Grouped.step {freq : Duration} {b : Buckets} {seen : List Row}
    (h : Grouped freq b seen) (row : Row) :
    Grouped freq (addToBucket freq b row) (seen ++ [row]) := by
  have hk : Truncate row.Time freq = keyOf freq row := rfl
  refine ⟨?_, ?_, ?_, ?_⟩
  · simp only [addToBucket, keys_store]
    split
    · exact h.nodup
    · rename_i hnot
      refine List.Nodup.append h.nodup (List.nodup_singleton _) ?_
      intro a ha ha1
      rw [List.mem_singleton] at ha1
      exact hnot (ha1 ▸ ha)
  · intro k
    simp only [addToBucket, lookup_store, rowsOfKey_append, rowsOfKey_single, h.lookup, hk]
    by_cases hkk : keyOf freq row = k
    · simp [hkk]
    · simp [hkk]
  · intro k hmem
    simp only [addToBucket, keys_store] at hmem
    have hcase : k ∈ b.map Prod.fst ∨ k = keyOf freq row := by
      split at hmem
      · exact Or.inl hmem
      · rcases List.mem_append.mp hmem with h1 | h1
        · exact Or.inl h1
        · exact Or.inr (by simpa [hk] using h1)
    rcases hcase with h1 | h1
    · obtain ⟨r, hr, hrk⟩ := h.keys k h1
      exact ⟨r, List.mem_append_left _ hr, hrk⟩
    · exact ⟨row, by simp, h1.symm⟩
  · have hs := sizes_store b (Truncate row.Time freq) (Buckets.lookup b (Truncate row.Time freq) ++ [row])
    simp only [addToBucket, List.length_append, List.length_singleton] at hs ⊢
    have := h.sizes
    omega

theorem Grouped.foldl {freq : Duration} (rows : List Row) :
    ∀ {b : Buckets} {seen : List Row}, Grouped freq b seen →
      Grouped freq (rows.foldl (addToBucket freq) b) (seen ++ rows) := by
  induction rows with
  | nil => intro b seen h; simpa using h
  | cons row rows ih =>
    intro b seen h
    have h1 := ih (h.step row)
    simpa [List.append_assoc] using h1

theorem groupRows_grouped (rows : List Row) (freq : Duration) :
    Grouped freq (groupRows rows freq) rows := by
  have h := Grouped.foldl rows (Grouped.empty freq)
  simpa [groupRows] using h

theorem groupRows_entry (rows : List Row) (freq : Duration) (e : Time × List Row)
    (he : e ∈ groupRows rows freq) : e.2 = rowsOfKey freq e.1 rows := by
  have h := groupRows_grouped rows freq
  rw [← lookup_of_mem _ h.nodup e he]
  exact h.lookup e.1

theorem groupRows_key_mem (rows : List Row) (freq : Duration) (row : Row) (hrow : row ∈ rows) :
    keyOf freq row ∈ (groupRows rows freq).map Prod.fst := by
  have h := groupRows_grouped rows freq
  by_contra hnot
  have h1 := lookup_of_not_mem _ _ hnot
  rw [h.lookup] at h1
  have h2 : row ∈ rowsOfKey freq (keyOf freq row) rows := by
    simp [rowsOfKey, hrow]
  rw [h1] at h2
  simp at h2

theorem groupRows_keys_perm (rows : List Row) (freq : Duration) :
    ((groupRows rows freq).map Prod.fst).Perm ((rows.map (keyOf freq)).dedup) := by
  have h := groupRows_grouped rows freq
  rw [List.perm_ext_iff_of_nodup h.nodup (List.nodup_dedup _)]
  intro k
  constructor
  · intro hk
    obtain ⟨row, hrow, hrk⟩ := h.keys k hk
    exact List.mem_dedup.mpr (List.mem_map.mpr ⟨row, hrow, hrk⟩)
  · intro hk
    obtain ⟨row, hrow, hrk⟩ := List.mem_map.mp (List.mem_dedup.mp hk)
    rw [← hrk]
    exact groupRows_key_mem rows freq row hrow

/-! ## The mean of a group -/

theorem foldl_addRow (rows : List Row) (acc : ℚ × ℚ × ℚ) :
    rows.foldl addRow acc =
      (acc.1 + (rows.map Row.Lat).sum, acc.2.1 + (rows.map Row.Lng).sum,
        acc.2.2 + (rows.map Row.Height).sum) := by
  induction rows generalizing acc with
  | nil => simp
  | cons row rows ih =>
    rw [List.foldl_cons, ih]
    simp [addRow, add_assoc]

theorem meanRow_eq (t : Time) (rows : List Row) :
    meanRow t rows =
      { Time := t
        Lat := (rows.map Row.Lat).sum / (rows.length : ℚ)
        Lng := (rows.map Row.Lng).sum / (rows.length : ℚ)
        Height := (rows.map Row.Height).sum / (rows.length : ℚ) } := by
  simp [meanRow, foldl_addRow]

theorem meanRow_single (row : Row) : meanRow row.Time [row] = row := by
  simp [meanRow, addRow]

theorem collectMeans_acc (entries : Buckets) (acc : List Row) :
    entries.foldl (fun out e => out ++ [meanRow e.1 e.2]) acc =
      acc ++ entries.map (fun e => meanRow e.1 e.2) := by
  induction entries generalizing acc with
  | nil => simp
  | cons e entries ih => simp [ih]

theorem collectMeans_eq (entries : Buckets) :
    collectMeans entries = entries.map (fun e => meanRow e.1 e.2) := by
  simp [collectMeans, collectMeans_acc]

/-! ## The sorting routine of Go -/

theorem swapAt_length (xs ys : List Row) (i j : Nat) (h : swapAt xs i j = some ys) :
    ys.length = xs.length := by
  unfold swapAt at h
  split at h
  · simp only [Option.some.injEq] at h
    rw [← h]
    simp
  · simp at h

theorem swapAt_isSome (xs : List Row) (i j : Nat) (hi : i < xs.length) (hj : j < xs.length) :
    ∃ ys, swapAt xs i j = some ys := by
  unfold swapAt
  rw [List.getElem?_eq_getElem hi, List.getElem?_eq_getElem hj]
  exact ⟨_, rfl⟩

theorem swapAt_perm (xs ys : List Row) (i j : Nat) (h : swapAt xs i j = some ys) :
    ys.Perm xs := by
  unfold swapAt at h
  split at h
  · rename_i x y hx hy
    simp only [Option.some.injEq] at h
    subst h
    obtain ⟨hi, hxi⟩ := List.getElem?_eq_some_iff.mp hx
    obtain ⟨hj, hyj⟩ := List.getElem?_eq_some_iff.mp hy
    rw [List.perm_iff_count]
    intro a
    have hj2 : j < (xs.set i y).length := by simpa using hj
    rw [List.count_set _ _ _ _ hj2, List.count_set _ _ _ _ hi]
    have hget : (xs.set i y)[j] = y := by
      rw [List.getElem_set]
      split
      · rfl
      · exact hyj
    rw [hget, hxi]
    have hpos : (if (x == a) = true then 1 else 0) ≤ List.count a xs := by
      split
      · rename_i hxa
        have : x = a := by simpa using hxa
        subst this
        exact List.count_pos_iff.mpr (hxi ▸ List.getElem_mem _)
      · exact Nat.zero_le _
    omega
  · simp at h

theorem insertionInner_perm (less : Nat → Nat → Option Bool) (a : Nat) :
    ∀ (j : Nat) (xs ys : List Row), insertionInner less a j xs = some ys → ys.Perm xs := by
  intro j
  induction j with
  | zero =>
    intro xs ys h
    simp only [insertionInner, Option.some.injEq] at h
    rw [h]
  | succ j ih =>
    intro xs ys h
    unfold insertionInner at h
    split at h
    · split at h
      · simp at h
      · split at h
        · simp at h
        · rename_i zs hz
          exact (ih zs ys h).trans (swapAt_perm xs zs _ _ hz)
      · simp only [Option.some.injEq] at h
        rw [h]
    · simp only [Option.some.injEq] at h
      rw [h]

theorem foldlM_inner_perm (less : Nat → Nat → Option Bool) (a : Nat) (idx : List Nat) :
    ∀ (xs ys : List Row),
      idx.foldlM (fun zs i => insertionInner less a i zs) xs = some ys → ys.Perm xs := by
  induction idx with
  | nil =>
    intro xs ys h
    simp only [List.foldlM_nil, pure, Option.some.injEq] at h
    rw [h]
  | cons i idx ih =>
    intro xs ys h
    rw [List.foldlM_cons] at h
    cases hstep : insertionInner less a i xs with
    | none => rw [hstep] at h; simp at h
    | some zs =>
      rw [hstep] at h
      exact (ih zs ys h).trans (insertionInner_perm less a i xs zs hstep)

theorem sortSlice_swapsOnly : SwapsOnly sortSlice := by
  intro less xs ys h
  exact foldlM_inner_perm less 0 _ xs ys h

theorem insertionInner_inRange (less : Nat → Nat → Option Bool) (a n : Nat)
    (hless : ∀ i j, i < n → j < n → (less i j).isSome) :
    ∀ (j : Nat) (xs : List Row), j < n → xs.length = n →
      ∃ ys, insertionInner less a j xs = some ys ∧ ys.length = n := by
  intro j
  induction j with
  | zero =>
    intro xs _ hxs
    exact ⟨xs, rfl, hxs⟩
  | succ j ih =>
    intro xs hj hxs
    unfold insertionInner
    split
    · have h1 := hless (j + 1) j hj (by omega)
      obtain ⟨c, hc⟩ := Option.isSome_iff_exists.mp h1
      rw [hc]
      cases c with
      | false => exact ⟨xs, rfl, hxs⟩
      | true =>
        obtain ⟨zs, hz⟩ := swapAt_isSome xs (j + 1) j (by omega) (by omega)
        have hzl := swapAt_length xs zs _ _ hz
        simp only [hz]
        exact ih zs (by omega) (by omega)
    · exact ⟨xs, rfl, hxs⟩

theorem foldlM_inner_inRange (less : Nat → Nat → Option Bool) (a n : Nat)
    (hless : ∀ i j, i < n → j < n → (less i j).isSome) (idx : List Nat) :
    ∀ (xs : List Row), (∀ i ∈ idx, i < n) → xs.length = n →
      ∃ ys, idx.foldlM (fun zs i => insertionInner less a i zs) xs = some ys ∧
        ys.length = n := by
  induction idx with
  | nil =>
    intro xs _ hxs
    exact ⟨xs, rfl, hxs⟩
  | cons i idx ih =>
    intro xs hidx hxs
    obtain ⟨zs, hz, hzl⟩ :=
      insertionInner_inRange less a n hless i xs (hidx i (List.mem_cons_self _ _)) hxs
    rw [List.foldlM_cons, hz]
    exact ih zs (fun k hk => hidx k (List.mem_cons_of_mem _ hk)) hzl

theorem sortSlice_callsInRange : CallsInRange sortSlice := by
  intro less xs hless
  have hidx : ∀ i ∈ List.range' (0 + 1) (xs.length - (0 + 1)), i < xs.length := by
    intro i hi
    rw [List.mem_range'_1] at hi
    omega
  obtain ⟨ys, hys, _⟩ := foldlM_inner_inRange less 0 xs.length hless _ xs hidx rfl
  unfold sortSlice insertionSort_func
  rw [hys]
  rfl

theorem rangeStored_visitsAll : VisitsAll rangeStored :=
  fun b => List.Perm.refl b

theorem rangeLatestFirst_visitsAll : VisitsAll rangeLatestFirst :=
  fun b => List.reverse_perm b

/-! ## The output of `resample` -/

theorem groupRows_length_le (rows : List Row) (freq : Duration) :
    (groupRows rows freq).length = ((rows.map (keyOf freq)).dedup).length ∧
      ((rows.map (keyOf freq)).dedup).length ≤ rows.length := by
  constructor
  · have h := (groupRows_keys_perm rows freq).length_eq
    simpa using h
  · have h := (List.dedup_sublist (rows.map (keyOf freq))).length_le
    simpa using h

theorem collectMeans_range_perm (range : RangeOrder) (hrange : VisitsAll range)
    (b : Buckets) : (collectMeans (range b)).Perm (b.map (fun e => meanRow e.1 e.2)) := by
  rw [collectMeans_eq]
  exact (hrange b).map _

theorem lessRows_isSome (rows : List Row) (i j : Nat) (hi : i < rows.length)
    (hj : j < rows.length) : (lessRows rows i j).isSome := by
  unfold lessRows
  rw [List.getElem?_eq_getElem hi, List.getElem?_eq_getElem hj]
  rfl

theorem resample_perm (sorter : SortRoutine) (range : RangeOrder) (hswap : SwapsOnly sorter)
    (hrange : VisitsAll range) (rows out : List Row) (freq : Duration)
    (h : resample sorter range rows freq = some out) :
    out.Perm ((groupRows rows freq).map (fun e => meanRow e.1 e.2)) :=
  (hswap _ _ _ h).trans (collectMeans_range_perm range hrange _)

theorem resample_returns (sorter : SortRoutine) (range : RangeOrder)
    (hcalls : CallsInRange sorter) (hrange : VisitsAll range) (rows : List Row)
    (freq : Duration) : ∃ out, resample sorter range rows freq = some out := by
  apply Option.isSome_iff_exists.mp
  apply hcalls
  intro i j hi hj
  have hlen : (collectMeans (range (groupRows rows freq))).length ≤ rows.length := by
    rw [(collectMeans_range_perm range hrange _).length_eq, List.length_map,
      (groupRows_length_le rows freq).1]
    exact (groupRows_length_le rows freq).2
  exact lessRows_isSome rows i j (by omega) (by omega)

theorem resample_mem (sorter : SortRoutine) (range : RangeOrder) (hswap : SwapsOnly sorter)
    (hrange : VisitsAll range) (rows out : List Row) (freq : Duration)
    (h : resample sorter range rows freq = some out) (r : Row) (hr : r ∈ out) :
    ∃ k, (∃ row ∈ rows, keyOf freq row = k) ∧ r = meanRow k (rowsOfKey freq k rows) := by
  have hperm := resample_perm sorter range hswap hrange rows out freq h
  obtain ⟨e, he, hre⟩ := List.mem_map.mp (hperm.mem_iff.mp hr)
  have hg := groupRows_grouped rows freq
  refine ⟨e.1, hg.keys e.1 (List.mem_map.mpr ⟨e, he, rfl⟩), ?_⟩
  rw [← groupRows_entry rows freq e he, hre]

theorem groupRows_means_perm (rows : List Row) (freq : Duration) :
    ((groupRows rows freq).map (fun e => meanRow e.1 e.2)).Perm
      (((rows.map (keyOf freq)).dedup).map (fun k => meanRow k (rowsOfKey freq k rows))) := by
  have h1 : (groupRows rows freq).map (fun e => meanRow e.1 e.2) =
      ((groupRows rows freq).map Prod.fst).map
        (fun k => meanRow k (rowsOfKey freq k rows)) := by
    rw [List.map_map]
    apply List.map_congr_left
    intro e he
    simp only [Function.comp]
    rw [← groupRows_entry rows freq e he]
  rw [h1]
  exact (groupRows_keys_perm rows freq).map _

theorem resample_perm_means (sorter : SortRoutine) (range : RangeOrder)
    (hswap : SwapsOnly sorter) (hrange : VisitsAll range) (rows out : List Row)
    (freq : Duration) (h : resample sorter range rows freq = some out) :
    out.Perm
      (((rows.map (keyOf freq)).dedup).map (fun k => meanRow k (rowsOfKey freq k rows))) :=
  (resample_perm sorter range hswap hrange rows out freq h).trans
    (groupRows_means_perm rows freq)

theorem means_times (keys : List Time) (g : Time → List Row) :
    (keys.map (fun k => meanRow k (g k))).map Row.Time = keys := by
  induction keys with
  | nil => rfl
  | cons k keys ih =>
    rw [List.map_cons, List.map_cons, ih]
    rfl

theorem resample_times_perm (sorter : SortRoutine) (range : RangeOrder)
    (hswap : SwapsOnly sorter) (hrange : VisitsAll range) (rows out : List Row)
    (freq : Duration) (h : resample sorter range rows freq = some out) :
    (out.map Row.Time).Perm ((rows.map (keyOf freq)).dedup) := by
  have h1 := (resample_perm_means sorter range hswap hrange rows out freq h).map Row.Time
  rw [means_times] at h1
  exact h1

theorem resample_times_nodup (sorter : SortRoutine) (range : RangeOrder)
    (hswap : SwapsOnly sorter) (hrange : VisitsAll range) (rows out : List Row)
    (freq : Duration) (h : resample sorter range rows freq = some out) :
    (out.map Row.Time).Nodup :=
  (resample_times_perm sorter range hswap hrange rows out freq h).nodup_iff.mpr
    (List.nodup_dedup _)

theorem resample_covers (sorter : SortRoutine) (range : RangeOrder)
    (hswap : SwapsOnly sorter) (hrange : VisitsAll range) (rows out : List Row)
    (freq : Duration) (h : resample sorter range rows freq = some out) (row : Row)
    (hrow : row ∈ rows) : ∃ r ∈ out, r.Time = keyOf freq row := by
  have hmem : keyOf freq row ∈ (rows.map (keyOf freq)).dedup :=
    List.mem_dedup.mpr (List.mem_map.mpr ⟨row, hrow, rfl⟩)
  have h2 := (resample_times_perm sorter range hswap hrange rows out freq h).mem_iff.mpr hmem
  obtain ⟨r, hr, hrt⟩ := List.mem_map.mp h2
  exact ⟨r, hr, hrt⟩

/-- C2. The call `resample` returns a series that is, up to order, the list of the mean
rows of the buckets: one row `meanRow(k, group of k)` for each distinct truncated time `k`
of the input. So the returned times are pairwise different, every input row finds the
row of its bucket in the output, and every returned row carries a bucket key `k` as its
time while its `Lat`, `Lng` and `Height` are the sums of that field over the input rows
whose truncated time is `k`, divided by the number of those rows (exact arithmetic).
This holds for every bucket width, so in particular for every positive one, for every
routine `sort.Slice` may run and every order in which `range` may visit the map. -/
theorem resample_rows_are_bucket_means (sorter : SortRoutine) (range : RangeOrder)
    (hswap : SwapsOnly sorter) (hcalls : CallsInRange sorter) (hrange : VisitsAll range)
    (rows : List Row) (freq : Duration) :
    ∃ out, resample sorter range rows freq = some out ∧
      out.Perm (((rows.map (fun row => Truncate row.Time freq)).dedup).map
        (fun k => meanRow k (rowsOfKey freq k rows))) ∧
      (out.map Row.Time).Nodup ∧
      (∀ row ∈ rows, ∃ r ∈ out, r.Time = Truncate row.Time freq) ∧
      ∀ r ∈ out, ∃ k, (∃ row ∈ rows, Truncate row.Time freq = k) ∧ r.Time = k ∧
        r.Lat = ((rowsOfKey freq k rows).map Row.Lat).sum / ((rowsOfKey freq k rows).length : ℚ) ∧
        r.Lng = ((rowsOfKey freq k rows).map Row.Lng).sum / ((rowsOfKey freq k rows).length : ℚ) ∧
        r.Height =
          ((rowsOfKey freq k rows).map Row.Height).sum / ((rowsOfKey freq k rows).length : ℚ) := by
  obtain ⟨out, hout⟩ := resample_returns sorter range hcalls hrange rows freq
  refine ⟨out, hout, resample_perm_means sorter range hswap hrange rows out freq hout,
    resample_times_nodup sorter range hswap hrange rows out freq hout,
    resample_covers sorter range hswap hrange rows out freq hout, ?_⟩
  intro r hr
  obtain ⟨k, hk, hrk⟩ := resample_mem sorter range hswap hrange rows out freq hout r hr
  refine ⟨k, hk, ?_⟩
  rw [hrk, meanRow_eq]
  exact ⟨rfl, rfl, rfl, rfl⟩

/-- Witness of C2: the theorem applied to the short-slice sorting routine of Go, the
stored-order iteration and the three-row track of the scenario in the specification,
whose output is the mean row of bucket 0 followed by the mean row of bucket 60. -/
theorem resample_rows_are_bucket_means_witness :
    SwapsOnly sortSlice ∧ CallsInRange sortSlice ∧ VisitsAll rangeStored ∧
    resample sortSlice rangeStored [mkRow 10 10, mkRow 40 20, mkRow 65 30] 60 = some [mkRow 0 15, mkRow 60 30] ∧
    ∃ out, resample sortSlice rangeStored [mkRow 10 10, mkRow 40 20, mkRow 65 30] 60 = some out ∧
      out.Perm ((([mkRow 10 10, mkRow 40 20, mkRow 65 30].map (fun row => Truncate row.Time 60)).dedup).map
        (fun k => meanRow k (rowsOfKey 60 k [mkRow 10 10, mkRow 40 20, mkRow 65 30]))) ∧
      (out.map Row.Time).Nodup ∧
      (∀ row ∈ [mkRow 10 10, mkRow 40 20, mkRow 65 30], ∃ r ∈ out, r.Time = Truncate row.Time 60) ∧
      ∀ r ∈ out, ∃ k, (∃ row ∈ [mkRow 10 10, mkRow 40 20, mkRow 65 30],
          Truncate row.Time 60 = k) ∧ r.Time = k ∧
        r.Lat = ((rowsOfKey 60 k [mkRow 10 10, mkRow 40 20, mkRow 65 30]).map Row.Lat).sum /
          ((rowsOfKey 60 k [mkRow 10 10, mkRow 40 20, mkRow 65 30]).length : ℚ) ∧
        r.Lng = ((rowsOfKey 60 k [mkRow 10 10, mkRow 40 20, mkRow 65 30]).map Row.Lng).sum /
          ((rowsOfKey 60 k [mkRow 10 10, mkRow 40 20, mkRow 65 30]).length : ℚ) ∧
        r.Height =
          ((rowsOfKey 60 k [mkRow 10 10, mkRow 40 20, mkRow 65 30]).map Row.Height).sum /
            ((rowsOfKey 60 k [mkRow 10 10, mkRow 40 20, mkRow 65 30]).length : ℚ) :=
  ⟨sortSlice_swapsOnly, sortSlice_callsInRange, rangeStored_visitsAll,
    by
      norm_num [resample, groupRows, addToBucket, Truncate, Buckets.lookup, Buckets.store,
        mkRow, rangeStored, collectMeans, meanRow, addRow, sortSlice, insertionSort_func,
        List.range', insertionInner, lessRows, Before, swapAt],
    resample_rows_are_bucket_means sortSlice rangeStored sortSlice_swapsOnly
      sortSlice_callsInRange rangeStored_visitsAll [mkRow 10 10, mkRow 40 20, mkRow 65 30] 60⟩

/-- C3. The groups built by the grouping loop of `resample` partition the input: the keys
are pairwise different, no group is empty, each group holds exactly the input rows whose
truncated time is its key, every input row lies in exactly one group and that group is
keyed by the truncated time of the row, the group sizes add up to the input length, and so the
divisor `len(rows)` of `meanRow` is at least 1 on every group. This holds for every
bucket width, so in particular for every positive one. -/
theorem groupRows_partitions_input (rows : List Row) (freq : Duration) :
    ((groupRows rows freq).map Prod.fst).Nodup ∧
    (∀ e ∈ groupRows rows freq, e.2 ≠ []) ∧
    (∀ e ∈ groupRows rows freq,
      e.2 = rows.filter (fun row => decide (Truncate row.Time freq = e.1))) ∧
    (∀ row ∈ rows, ∃! e, e ∈ groupRows rows freq ∧ row ∈ e.2) ∧
    (∀ row ∈ rows, ∀ e ∈ groupRows rows freq, row ∈ e.2 ↔ e.1 = Truncate row.Time freq) ∧
    ((groupRows rows freq).map (fun e => e.2.length)).sum = rows.length ∧
    (∀ e ∈ groupRows rows freq, 1 ≤ e.2.length) := by
  have hg := groupRows_grouped rows freq
  have hentry := groupRows_entry rows freq
  have hne : ∀ e ∈ groupRows rows freq, e.2 ≠ [] := by
    intro e he
    obtain ⟨row, hrow, hk⟩ := hg.keys e.1 (List.mem_map.mpr ⟨e, he, rfl⟩)
    rw [hentry e he]
    apply List.ne_nil_of_mem (a := row)
    simp [rowsOfKey, hrow, hk]
  have hiff : ∀ row ∈ rows, ∀ e ∈ groupRows rows freq,
      row ∈ e.2 ↔ e.1 = Truncate row.Time freq := by
    intro row hrow e he
    rw [hentry e he]
    simp only [rowsOfKey, keyOf, List.mem_filter, decide_eq_true_eq, hrow, true_and]
    exact eq_comm
  refine ⟨hg.nodup, hne, hentry, ?_, hiff, hg.sizes, ?_⟩
  · intro row hrow
    obtain ⟨e, he, hek⟩ := List.mem_map.mp (groupRows_key_mem rows freq row hrow)
    refine ⟨e, ⟨he, (hiff row hrow e he).mpr hek⟩, ?_⟩
    rintro e2 ⟨he2, hrow2⟩
    have h1 : e2.1 = e.1 := ((hiff row hrow e2 he2).mp hrow2).trans hek.symm
    apply Prod.ext h1
    rw [hentry e he, hentry e2 he2, h1]
  · intro e he
    exact List.length_pos.mpr (hne e he)

/-- C9. For a positive bucket width `w`, the group in which `resample` puts a row with
time `t` is keyed by `k = t.Truncate(w)`, and `k` is the floor of `t` to a multiple of `w`
counted from the zero time: `w` divides `k` and `k <= t < k + w`. -/
theorem bucket_key_is_floor (rows : List Row) (w : Duration) (hw : 0 < w) (row : Row)
    (hrow : row ∈ rows) :
    ∃ e ∈ groupRows rows w, row ∈ e.2 ∧ e.1 = Truncate row.Time w ∧
      w ∣ e.1 ∧ e.1 ≤ row.Time ∧ row.Time < e.1 + w := by
  obtain ⟨e, he, hek⟩ := List.mem_map.mp (groupRows_key_mem rows w row hrow)
  have hk : e.1 = Truncate row.Time w := hek
  refine ⟨e, he, ?_, hk, ?_, ?_, ?_⟩
  · rw [groupRows_entry rows w e he]
    simp [rowsOfKey, hrow, hek]
  · rw [hk]
    exact (Truncate_floor row.Time w hw).1
  · rw [hk]
    exact (Truncate_floor row.Time w hw).2.1
  · rw [hk]
    exact (Truncate_floor row.Time w hw).2.2

/-- Witness of C9: the row at time 65 of a three-row track, width 60. -/
theorem bucket_key_is_floor_witness :
    (0 : Duration) < 60 ∧ mkRow 65 30 ∈ [mkRow 10 10, mkRow 40 20, mkRow 65 30] ∧
    ∃ e ∈ groupRows [mkRow 10 10, mkRow 40 20, mkRow 65 30] 60, mkRow 65 30 ∈ e.2 ∧
      e.1 = Truncate (mkRow 65 30).Time 60 ∧
      (60 : Duration) ∣ e.1 ∧ e.1 ≤ (mkRow 65 30).Time ∧ (mkRow 65 30).Time < e.1 + 60 :=
  ⟨by decide, by simp,
    bucket_key_is_floor [mkRow 10 10, mkRow 40 20, mkRow 65 30] 60 (by decide) (mkRow 65 30)
      (by simp)⟩

/-- C7. On the empty sequence of rows `resample` returns the empty sequence, for every
bucket width, every routine `sort.Slice` may run and every order of `range`. -/
theorem resample_empty (sorter : SortRoutine) (range : RangeOrder)
    (hswap : SwapsOnly sorter) (hcalls : CallsInRange sorter) (hrange : VisitsAll range)
    (freq : Duration) : resample sorter range [] freq = some [] := by
  obtain ⟨out, hout⟩ := resample_returns sorter range hcalls hrange [] freq
  have hperm := resample_perm sorter range hswap hrange [] out freq hout
  have hnil : out = [] := by
    apply List.Perm.eq_nil
    simpa [groupRows] using hperm
  rw [hout, hnil]

/-- Witness of C7: the short-slice sorting routine of Go, stored-order iteration, width 60. -/
theorem resample_empty_witness :
    SwapsOnly sortSlice ∧ CallsInRange sortSlice ∧ VisitsAll rangeStored ∧
    resample sortSlice rangeStored [] 60 = some [] :=
  ⟨sortSlice_swapsOnly, sortSlice_callsInRange, rangeStored_visitsAll,
    resample_empty sortSlice rangeStored sortSlice_swapsOnly sortSlice_callsInRange
      rangeStored_visitsAll 60⟩

/-- C8. The output of `resample` is at most as long as the number of distinct truncated
times among the input rows, which is at most the input length. This holds for every
bucket width, so in particular for every positive one; and `resample` does return. -/
theorem resample_length_le (sorter : SortRoutine) (range : RangeOrder)
    (hswap : SwapsOnly sorter) (hcalls : CallsInRange sorter) (hrange : VisitsAll range)
    (rows : List Row) (freq : Duration) :
    ∃ out, resample sorter range rows freq = some out ∧
      out.length ≤ ((rows.map (fun row => Truncate row.Time freq)).dedup).length ∧
      ((rows.map (fun row => Truncate row.Time freq)).dedup).length ≤ rows.length := by
  obtain ⟨out, hout⟩ := resample_returns sorter range hcalls hrange rows freq
  have hperm := resample_perm sorter range hswap hrange rows out freq hout
  have hlen := groupRows_length_le rows freq
  refine ⟨out, hout, ?_, hlen.2⟩
  have h1 : out.length = (groupRows rows freq).length := by
    rw [hperm.length_eq, List.length_map]
  rw [h1, hlen.1]
  exact le_refl _

/-- Witness of C8: a three-row track with two buckets. -/
theorem resample_length_le_witness :
    SwapsOnly sortSlice ∧ CallsInRange sortSlice ∧ VisitsAll rangeStored ∧
    ∃ out, resample sortSlice rangeStored [mkRow 10 10, mkRow 40 20, mkRow 65 30] 60 = some out ∧
      out.length ≤ (([mkRow 10 10, mkRow 40 20, mkRow 65 30].map
        (fun row => Truncate row.Time 60)).dedup).length ∧
      (([mkRow 10 10, mkRow 40 20, mkRow 65 30].map
        (fun row => Truncate row.Time 60)).dedup).length ≤
        [mkRow 10 10, mkRow 40 20, mkRow 65 30].length :=
  ⟨sortSlice_swapsOnly, sortSlice_callsInRange, rangeStored_visitsAll,
    resample_length_le sortSlice rangeStored sortSlice_swapsOnly sortSlice_callsInRange
      rangeStored_visitsAll [mkRow 10 10, mkRow 40 20, mkRow 65 30] 60⟩

/-- C10. The comparator that `resample` passes to `sort.Slice` reads `rows` at indices of
`out`. The slice `out` handed to `sort.Slice` is no longer than `rows`, so the comparator
answers on all indices below `len(out)`, and `resample` completes without an
index-out-of-range failure, for every input and every bucket width. -/
theorem resample_comparator_in_bounds (sorter : SortRoutine) (range : RangeOrder)
    (hcalls : CallsInRange sorter) (hrange : VisitsAll range) (rows : List Row)
    (freq : Duration) :
    (collectMeans (range (groupRows rows freq))).length ≤ rows.length ∧
    (∀ i j, i < (collectMeans (range (groupRows rows freq))).length →
      j < (collectMeans (range (groupRows rows freq))).length →
      ∃ answer, lessRows rows i j = some answer) ∧
    ∃ out, resample sorter range rows freq = some out := by
  have hlen : (collectMeans (range (groupRows rows freq))).length ≤ rows.length := by
    rw [(collectMeans_range_perm range hrange _).length_eq, List.length_map,
      (groupRows_length_le rows freq).1]
    exact (groupRows_length_le rows freq).2
  refine ⟨hlen, ?_, resample_returns sorter range hcalls hrange rows freq⟩
  intro i j hi hj
  exact Option.isSome_iff_exists.mp (lessRows_isSome rows i j (by omega) (by omega))

/-- Witness of C10: a track in which three rows share two buckets. -/
theorem resample_comparator_in_bounds_witness :
    CallsInRange sortSlice ∧ VisitsAll rangeLatestFirst ∧
    ((collectMeans (rangeLatestFirst
        (groupRows [mkRow 30 1, mkRow 0 2, mkRow 60 3] 60))).length ≤
      [mkRow 30 1, mkRow 0 2, mkRow 60 3].length ∧
    (∀ i j,
      i < (collectMeans (rangeLatestFirst
        (groupRows [mkRow 30 1, mkRow 0 2, mkRow 60 3] 60))).length →
      j < (collectMeans (rangeLatestFirst
        (groupRows [mkRow 30 1, mkRow 0 2, mkRow 60 3] 60))).length →
      ∃ answer, lessRows [mkRow 30 1, mkRow 0 2, mkRow 60 3] i j = some answer) ∧
    ∃ out, resample sortSlice rangeLatestFirst [mkRow 30 1, mkRow 0 2, mkRow 60 3] 60 =
      some out) :=
  ⟨sortSlice_callsInRange, rangeLatestFirst_visitsAll,
    resample_comparator_in_bounds sortSlice rangeLatestFirst sortSlice_callsInRange
      rangeLatestFirst_visitsAll [mkRow 30 1, mkRow 0 2, mkRow 60 3] 60⟩

theorem keyOf_of_nonpos (freq : Duration) (hfreq : freq ≤ 0) (row : Row) :
    keyOf freq row = row.Time :=
  Truncate_of_nonpos row.Time freq hfreq

theorem rowsOfKey_of_nonpos (freq : Duration) (hfreq : freq ≤ 0) (k : Time)
    (rows : List Row) :
    rowsOfKey freq k rows = rows.filter (fun row => decide (row.Time = k)) := by
  unfold rowsOfKey
  apply List.filter_congr
  intro row _
  rw [keyOf_of_nonpos freq hfreq row]

/-- C5, counterexample. With bucket width zero, and with a negative width, `resample`
returns a series: every row is its own bucket. -/
theorem resample_nonpositive_width_returns :
    resample sortSlice rangeStored [mkRow 10 1, mkRow 5 2] 0 =
      some [mkRow 5 2, mkRow 10 1] ∧
    resample sortSlice rangeStored [mkRow 10 1, mkRow 5 2] (-60) =
      some [mkRow 5 2, mkRow 10 1] := by
  constructor <;>
  norm_num [resample, groupRows, addToBucket, Truncate, Buckets.lookup, Buckets.store,
    mkRow, rangeStored, collectMeans, meanRow, addRow, sortSlice, insertionSort_func,
    List.range', insertionInner, lessRows, Before, swapAt]

/-- C5, amended. With a bucket width that is zero or negative `resample` does not fail:
it returns a series with exactly one row per distinct input time. The series is, up to
order, the list of the rows `meanRow(t, rows with time t)` over the distinct input times
`t`: the returned times are pairwise different, every input time has its row in the
output, and each returned row carries the time of an input row, not truncated, and the
means of the input rows that have exactly that time (exact arithmetic). -/
theorem resample_nonpositive_width (sorter : SortRoutine) (range : RangeOrder)
    (hswap : SwapsOnly sorter) (hcalls : CallsInRange sorter) (hrange : VisitsAll range)
    (rows : List Row) (freq : Duration) (hfreq : freq ≤ 0) :
    ∃ out, resample sorter range rows freq = some out ∧
      out.Perm (((rows.map Row.Time).dedup).map
        (fun t => meanRow t (rows.filter (fun row => decide (row.Time = t))))) ∧
      (out.map Row.Time).Nodup ∧
      (∀ row ∈ rows, ∃ r ∈ out, r.Time = row.Time) ∧
      out.length = ((rows.map Row.Time).dedup).length ∧
      ∀ r ∈ out, (∃ row ∈ rows, row.Time = r.Time) ∧
        r.Lat = ((rows.filter (fun row => decide (row.Time = r.Time))).map Row.Lat).sum /
          ((rows.filter (fun row => decide (row.Time = r.Time))).length : ℚ) ∧
        r.Lng = ((rows.filter (fun row => decide (row.Time = r.Time))).map Row.Lng).sum /
          ((rows.filter (fun row => decide (row.Time = r.Time))).length : ℚ) ∧
        r.Height =
          ((rows.filter (fun row => decide (row.Time = r.Time))).map Row.Height).sum /
            ((rows.filter (fun row => decide (row.Time = r.Time))).length : ℚ) := by
  obtain ⟨out, hout⟩ := resample_returns sorter range hcalls hrange rows freq
  have hperm := resample_perm sorter range hswap hrange rows out freq hout
  have hkeys : rows.map (keyOf freq) = rows.map Row.Time :=
    List.map_congr_left (fun row _ => keyOf_of_nonpos freq hfreq row)
  have hfun : (fun k => meanRow k (rowsOfKey freq k rows)) =
      (fun t => meanRow t (rows.filter (fun row => decide (row.Time = t)))) := by
    funext k
    rw [rowsOfKey_of_nonpos freq hfreq]
  refine ⟨out, hout, ?_, resample_times_nodup sorter range hswap hrange rows out freq hout,
    ?_, ?_, ?_⟩
  · have h1 := resample_perm_means sorter range hswap hrange rows out freq hout
    rw [hkeys, hfun] at h1
    exact h1
  · intro row hrow
    obtain ⟨r, hr, hrt⟩ := resample_covers sorter range hswap hrange rows out freq hout row hrow
    exact ⟨r, hr, hrt.trans (keyOf_of_nonpos freq hfreq row)⟩
  · rw [hperm.length_eq, List.length_map, (groupRows_length_le rows freq).1, hkeys]
  · intro r hr
    obtain ⟨k, ⟨row, hrow, hk⟩, hrk⟩ :=
      resample_mem sorter range hswap hrange rows out freq hout r hr
    rw [keyOf_of_nonpos freq hfreq row] at hk
    rw [rowsOfKey_of_nonpos freq hfreq, meanRow_eq] at hrk
    have htime : r.Time = k := by rw [hrk]
    rw [htime]
    refine ⟨⟨row, hrow, hk⟩, ?_, ?_, ?_⟩ <;> rw [hrk]

/-- Witness of C5 as amended: width zero on a track with a repeated time. The two rows at
time 10 are averaged into one row, the row at time 5 stands alone, and the comparator
(time 5 of the second input row before time 10 of the first) makes `sort.Slice` exchange
the two output rows. -/
theorem resample_nonpositive_width_witness :
    SwapsOnly sortSlice ∧ CallsInRange sortSlice ∧ VisitsAll rangeStored ∧
    (0 : Duration) ≤ 0 ∧
    resample sortSlice rangeStored [mkRow 10 1, mkRow 5 2, mkRow 10 3] 0 = some [mkRow 5 2, mkRow 10 2] ∧
    ∃ out, resample sortSlice rangeStored [mkRow 10 1, mkRow 5 2, mkRow 10 3] 0 = some out ∧
      out.Perm ((([mkRow 10 1, mkRow 5 2, mkRow 10 3].map Row.Time).dedup).map
        (fun t => meanRow t ([mkRow 10 1, mkRow 5 2, mkRow 10 3].filter (fun row => decide (row.Time = t))))) ∧
      (out.map Row.Time).Nodup ∧
      (∀ row ∈ [mkRow 10 1, mkRow 5 2, mkRow 10 3], ∃ r ∈ out, r.Time = row.Time) ∧
      out.length = (([mkRow 10 1, mkRow 5 2, mkRow 10 3].map Row.Time).dedup).length ∧
      ∀ r ∈ out, (∃ row ∈ [mkRow 10 1, mkRow 5 2, mkRow 10 3], row.Time = r.Time) ∧
        r.Lat = (([mkRow 10 1, mkRow 5 2, mkRow 10 3].filter
            (fun row => decide (row.Time = r.Time))).map Row.Lat).sum /
          (([mkRow 10 1, mkRow 5 2, mkRow 10 3].filter
            (fun row => decide (row.Time = r.Time))).length : ℚ) ∧
        r.Lng = (([mkRow 10 1, mkRow 5 2, mkRow 10 3].filter
            (fun row => decide (row.Time = r.Time))).map Row.Lng).sum /
          (([mkRow 10 1, mkRow 5 2, mkRow 10 3].filter
            (fun row => decide (row.Time = r.Time))).length : ℚ) ∧
        r.Height = (([mkRow 10 1, mkRow 5 2, mkRow 10 3].filter
            (fun row => decide (row.Time = r.Time))).map Row.Height).sum /
          (([mkRow 10 1, mkRow 5 2, mkRow 10 3].filter
            (fun row => decide (row.Time = r.Time))).length : ℚ) :=
  ⟨sortSlice_swapsOnly, sortSlice_callsInRange, rangeStored_visitsAll, le_refl _,
    by
      norm_num [resample, groupRows, addToBucket, Truncate, Buckets.lookup, Buckets.store,
        mkRow, rangeStored, collectMeans, meanRow, addRow, sortSlice, insertionSort_func,
        List.range', insertionInner, lessRows, Before, swapAt],
    resample_nonpositive_width sortSlice rangeStored sortSlice_swapsOnly
      sortSlice_callsInRange rangeStored_visitsAll [mkRow 10 1, mkRow 5 2, mkRow 10 3] 0
      (le_refl _)⟩

/-- C1, the code at a failing input. Rows at times 30, 0, 60 with width 60 fall into the
buckets 0 and 60. The comparator compares `rows[1].Time = 0` with `rows[0].Time = 30`
instead of the two elements of `out`, so `sort.Slice` exchanges `out[0]` and `out[1]`:
when `range` visits bucket 0 first, the output is bucket 60 followed by bucket 0. On the
track of the scenario in the specification (times 10, 40, 65) the comparator never asks for
an exchange, and the output keeps the order of `range`, here bucket 60 first. -/
theorem resample_output_not_increasing :
    resample sortSlice rangeStored [mkRow 30 1, mkRow 0 3, mkRow 60 5] 60 =
      some [mkRow 60 5, mkRow 0 2] ∧
    ¬ StrictlyIncreasing [mkRow 60 5, mkRow 0 2] ∧
    resample sortSlice rangeLatestFirst [mkRow 10 10, mkRow 40 20, mkRow 65 30] 60 =
      some [mkRow 60 30, mkRow 0 15] ∧
    ¬ StrictlyIncreasing [mkRow 60 30, mkRow 0 15] := by
  refine ⟨?_, ?_, ?_, ?_⟩
  · norm_num [resample, groupRows, addToBucket, Truncate, Buckets.lookup, Buckets.store,
      mkRow, rangeStored, collectMeans, meanRow, addRow, sortSlice, insertionSort_func,
      List.range', insertionInner, lessRows, Before, swapAt]
  · simp [StrictlyIncreasing, mkRow]
  · norm_num [resample, groupRows, addToBucket, Truncate, Buckets.lookup, Buckets.store,
      mkRow, rangeLatestFirst, collectMeans, meanRow, addRow, sortSlice, insertionSort_func,
      List.range', insertionInner, lessRows, Before, swapAt]
  · simp [StrictlyIncreasing, mkRow]

/-- C4, the code at a failing input. Two tracks that are permutations of each other, both
grouped into bucket 0 then bucket 60 and visited in that order, give different outputs:
with times 0, 30, 60 the comparator leaves `out` alone, with times 30, 0, 60 it makes
`sort.Slice` exchange the two buckets. And one and the same track gives different outputs
under two visiting orders of `range`. -/
theorem resample_depends_on_input_order :
    List.Perm [mkRow 0 3, mkRow 30 1, mkRow 60 5] [mkRow 30 1, mkRow 0 3, mkRow 60 5] ∧
    resample sortSlice rangeStored [mkRow 0 3, mkRow 30 1, mkRow 60 5] 60 =
      some [mkRow 0 2, mkRow 60 5] ∧
    resample sortSlice rangeStored [mkRow 30 1, mkRow 0 3, mkRow 60 5] 60 =
      some [mkRow 60 5, mkRow 0 2] ∧
    resample sortSlice rangeLatestFirst [mkRow 0 3, mkRow 30 1, mkRow 60 5] 60 =
      some [mkRow 60 5, mkRow 0 2] ∧
    [mkRow 0 2, mkRow 60 5] ≠ [mkRow 60 5, mkRow 0 2] := by
  refine ⟨List.Perm.swap _ _ _, ?_, ?_, ?_, ?_⟩
  · norm_num [resample, groupRows, addToBucket, Truncate, Buckets.lookup, Buckets.store,
      mkRow, rangeStored, collectMeans, meanRow, addRow, sortSlice, insertionSort_func,
      List.range', insertionInner, lessRows, Before, swapAt]
  · norm_num [resample, groupRows, addToBucket, Truncate, Buckets.lookup, Buckets.store,
      mkRow, rangeStored, collectMeans, meanRow, addRow, sortSlice, insertionSort_func,
      List.range', insertionInner, lessRows, Before, swapAt]
  · norm_num [resample, groupRows, addToBucket, Truncate, Buckets.lookup, Buckets.store,
      mkRow, rangeLatestFirst, collectMeans, meanRow, addRow, sortSlice, insertionSort_func,
      List.range', insertionInner, lessRows, Before, swapAt]
  · simp [mkRow]

/-- C6, the code at a failing input. The first call on times 30, 0, 60 returns bucket 60
followed by bucket 0. On that series the comparator finds `rows[1].Time = 0` before
`rows[0].Time = 60`, so the second call exchanges the two rows again and returns bucket 0
followed by bucket 60: a different sequence. -/
theorem resample_not_idempotent :
    resample sortSlice rangeStored [mkRow 30 1, mkRow 0 3, mkRow 60 5] 60 =
      some [mkRow 60 5, mkRow 0 2] ∧
    resample sortSlice rangeStored [mkRow 60 5, mkRow 0 2] 60 =
      some [mkRow 0 2, mkRow 60 5] ∧
    [mkRow 0 2, mkRow 60 5] ≠ [mkRow 60 5, mkRow 0 2] := by
  refine ⟨?_, ?_, ?_⟩
  · norm_num [resample, groupRows, addToBucket, Truncate, Buckets.lookup, Buckets.store,
      mkRow, rangeStored, collectMeans, meanRow, addRow, sortSlice, insertionSort_func,
      List.range', insertionInner, lessRows, Before, swapAt]
  · norm_num [resample, groupRows, addToBucket, Truncate, Buckets.lookup, Buckets.store,
      mkRow, rangeStored, collectMeans, meanRow, addRow, sortSlice, insertionSort_func,
      List.range', insertionInner, lessRows, Before, swapAt]
  · simp [mkRow]

end Track
